import Mathlib

/-!
Verification of the redaction plugin (src/main.ts).

The plugin is TypeScript running on a JavaScript engine, so every string is a
sequence of UTF-16 code units.  We embed strings as `List Nat`, one entry per
code unit (all concrete examples use their actual code-unit values, e.g. 61
for the equals sign).  JavaScript `String.prototype.length` is the number of
code units, `symbol.repeat(n)` concatenates `n` copies of `symbol`, and
`text.replace(new RegExp(marker + "(.*?)" + marker, "gs"), f)` performs a
global, left-to-right, leftmost, lazy scan of the pattern.  For a marker
whose characters carry no regular-expression meta-meaning the pattern matches
a literal occurrence of `marker`, then a shortest (lazy, dot-matches-newline)
inner segment, then another literal occurrence of `marker`; this literal
reading is the contract of the Redaction Engine (spec sections 3 and 4.1),
and is the semantics embedded below.  The separate question of markers made
of regex metacharacters is treated with `gbAux`/`groupsBalanced` further
down.
-/

/-- Boolean test that `m` is a prefix of `u`, comparing code units.  Used to
embed the literal-occurrence checks performed by the compiled regex. -/
def isPre : List Nat → List Nat → Bool
  | [], _ => true
  | _ :: _, [] => false
  | a :: as, b :: bs => a == b && isPre as bs

/-- Scan `u` for the first occurrence of the closing `m` (the lazy `(.*?)`
semantics: the shortest inner segment wins).  Returns the inner segment
before the occurrence and the remainder after it. -/
def findClose (m : List Nat) : List Nat → Option (List Nat × List Nat)
  | [] => if isPre m [] then some ([], List.drop m.length []) else none
  | c :: cs =>
    if isPre m (c :: cs) then some ([], List.drop m.length (c :: cs))
    else
      match findClose m cs with
      | some (i, r) => some (c :: i, r)
      | none => none

/-- One attempt of the pattern `marker(.*?)marker` at the start of `t`:
an occurrence of `m`, a lazy inner segment, and a closing occurrence of `m`.
Returns the inner segment and the remainder after the whole match. -/
def matchAt (m t : List Nat) : Option (List Nat × List Nat) :=
  if isPre m t then findClose m (List.drop m.length t) else none

/-- JavaScript `sym.repeat n`: `n` concatenated copies of the code-unit list
`sym` (the whole symbol string is repeated per unit of inner text, so a
multi-unit symbol is kept intact). -/
def repl (sym : List Nat) : Nat → List Nat
  | 0 => []
  | n + 1 => sym ++ repl sym n

/-- The global-replace loop of `String.prototype.replace` with a `g` regex,
specialised to the pattern `marker(.*?)marker` and the replacement function
`(_, text) => symbol.repeat(text.length)` of src/main.ts lines 33-36.
At each position the engine tries the pattern; on failure it emits the
current unit and advances one position; on a successful non-empty match it
emits the replacement and resumes after the match; on an empty match (which
happens exactly when the marker is the empty string) it emits the
replacement, then the current unit, and advances one position, as the
ECMAScript `lastIndex` bump prescribes.  The first component of the result
is the produced text, the second counts the replaced spans.  `fuel` bounds
the recursion; `none` means the fuel ran out. -/
def runFuel (m sym : List Nat) : Nat → List Nat → Option (List Nat × Nat)
  | 0, _ => none
  | fuel + 1, t =>
    match matchAt m t with
    | some (i, r) =>
      if 2 * m.length + i.length = 0 then
        match t with
        | [] => some (repl sym i.length, 1)
        | c :: cs => (runFuel m sym fuel cs).map (fun p => (repl sym i.length ++ c :: p.1, p.2 + 1))
      else
        (runFuel m sym fuel r).map (fun p => (repl sym i.length ++ p.1, p.2 + 1))
    | none =>
      match t with
      | [] => some ([], 0)
      | c :: cs => (runFuel m sym fuel cs).map (fun p => (c :: p.1, p.2))

/-- The replace loop run with sufficient fuel (one unit of fuel per input
position plus one; `runFuel_isSome` below proves this never runs out). -/
def run (m sym t : List Nat) : List Nat × Nat :=
  (runFuel m sym (t.length + 1) t).getD (t, 0)

/-- The extraction operation of the Redaction Engine: the text produced by
the replace call of src/main.ts lines 33-36. -/
def extract (m sym t : List Nat) : List Nat :=
  (run m sym t).1

/-- Number of spans replaced by the same replace call. -/
def matchCount (m sym t : List Nat) : Nat :=
  (run m sym t).2

/-- Fuel-bounded search loop counting left-to-right non-overlapping
occurrences of `m`: on an occurrence the search resumes right after it,
otherwise it advances one position.  One unit of fuel is spent per step,
so fuel `t.length` always suffices. -/
def seqCountF (m : List Nat) : Nat → List Nat → Nat
  | 0, _ => 0
  | _ + 1, [] => 0
  | f + 1, c :: cs =>
    if m ≠ [] ∧ isPre m (c :: cs) = true then
      1 + seqCountF m f (List.drop m.length (c :: cs))
    else
      seqCountF m f cs

/-- Number of left-to-right non-overlapping occurrences of `m` in `t`: the
count under which the spec speaks of "the marker appears an odd number of
times". -/
def seqCount (m t : List Nat) : Nat :=
  seqCountF m t.length t

/-- Number of Unicode characters (code points) of a UTF-16 code-unit list: a
high surrogate followed by a low surrogate forms a single character, every
other unit is one character.  This formalises the claim vocabulary
"character count" as opposed to the code-unit count `List.length`. -/
def charCount : List Nat → Nat
  | [] => 0
  | [_] => 1
  | u :: v :: rest =>
    if 0xD800 ≤ u ∧ u ≤ 0xDBFF ∧ 0xDC00 ≤ v ∧ v ≤ 0xDFFF then 1 + charCount rest
    else 1 + charCount (v :: rest)

/-- Interleaving of gaps and redacted spans: `assemble m ps g` is
`g0 ++ m ++ s0 ++ m ++ g1 ++ m ++ s1 ++ m ++ ... ++ g`, the shape of a text
with `ps.length` well-formed marker pairs followed by a final segment. -/
def assemble (m : List Nat) : List (List Nat × List Nat) → List Nat → List Nat
  | [], g => g
  | (g, s) :: rest, gfin => g ++ m ++ s ++ m ++ assemble m rest gfin

/-- Expected output for `assemble`: each span masked (symbol repeated per
code unit of the span), both markers deleted, gaps kept verbatim. -/
def assembleMasked (m sym : List Nat) : List (List Nat × List Nat) → List Nat → List Nat
  | [], g => g
  | (g, s) :: rest, gfin => g ++ repl sym s.length ++ assembleMasked m sym rest gfin

/-- Well-formedness of one gap-span chunk: no occurrence of the marker
starts strictly inside the gap (up to and including the opening marker
boundary), and none starts strictly inside the span (up to and including
the closing marker boundary).  This is what "well-formed, non-overlapping
pairs" means: markers occur exactly at the designated positions. -/
def okChunk (m : List Nat) (c : List Nat × List Nat) : Prop :=
  (∀ j < c.1.length, isPre m (List.drop j (c.1 ++ m)) = false) ∧
  (∀ j < c.2.length, isPre m (List.drop j (c.2 ++ m)) = false)

instance (m : List Nat) (c : List Nat × List Nat) : Decidable (okChunk m c) := by
  unfold okChunk
  infer_instance

/-- Code units with a regular-expression meta-meaning in ECMAScript patterns:
caret, dollar, backslash, dot, star, plus, question mark, parentheses,
brackets, braces, vertical bar.  A marker avoiding all of them is matched
literally by the generated pattern. -/
def metaChar (c : Nat) : Bool :=
  c == 94 || c == 36 || c == 92 || c == 46 || c == 42 || c == 43 || c == 63 ||
  c == 40 || c == 41 || c == 91 || c == 93 || c == 123 || c == 125 || c == 124

/-- A marker string free of regex metacharacters (matched literally). -/
def escapeFree (m : List Nat) : Bool :=
  m.all (fun c => !metaChar c)

/-- The pattern source string built at src/main.ts line 34:
`marker + "(.*?)" + marker` (code units 40 46 42 63 41 spell the inner
group `(.*?)`). -/
def pat (m : List Nat) : List Nat :=
  m ++ [40, 46, 42, 63, 41] ++ m

/-- Scanner for the group-balance well-formedness requirement of the
ECMAScript RegExp grammar: outside character classes, an escaped unit (after
a backslash, 92) is literal, `[` (91) opens a class closed by `]` (93), `(`
(40) pushes a group and `)` (41) pops one, and a pattern is rejected when a
`)` has no matching `(`, a group or class stays open at the end, or a
trailing backslash has nothing to escape.  `new RegExp` throws a
SyntaxError on any pattern violating this necessary condition. -/
def gbAux : List Nat → Nat → Bool → Bool → Bool
  | [], d, inClass, esc => !esc && (decide (d = 0) && !inClass)
  | c :: cs, d, inClass, esc =>
    if esc then gbAux cs d inClass false
    else if c = 92 then gbAux cs d inClass true
    else if inClass then
      if c = 93 then gbAux cs d false false else gbAux cs d true false
    else if c = 91 then gbAux cs d true false
    else if c = 40 then gbAux cs (d + 1) false false
    else if c = 41 then
      if d = 0 then false else gbAux cs (d - 1) false false
    else gbAux cs d inClass false

/-- Group balance of a whole pattern: a necessary condition for
`new RegExp(pattern)` not to throw a SyntaxError. -/
def groupsBalanced (p : List Nat) : Bool :=
  gbAux p 0 false false

/-- The code units removed by JavaScript `String.prototype.trim`:
WhiteSpace and LineTerminator of ECMAScript (tab, LF, VT, FF, CR, space,
NBSP, Ogham space, the U+2000 range, LS, PS, NNBSP, MMSP, ideographic
space, BOM). -/
def jsWhitespace (c : Nat) : Bool :=
  c == 9 || c == 10 || c == 11 || c == 12 || c == 13 || c == 32 || c == 160 ||
  c == 0x1680 || c == 0x2000 || c == 0x2001 || c == 0x2002 || c == 0x2003 ||
  c == 0x2004 || c == 0x2005 || c == 0x2006 || c == 0x2007 || c == 0x2008 ||
  c == 0x2009 || c == 0x200A || c == 0x2028 || c == 0x2029 || c == 0x202F ||
  c == 0x205F || c == 0x3000 || c == 0xFEFF

/-- JavaScript `line.trim()`: strip leading and trailing whitespace. -/
def jsTrim (l : List Nat) : List Nat :=
  ((l.dropWhile jsWhitespace).reverse.dropWhile jsWhitespace).reverse

/-- The per-line wrapping of src/main.ts lines 63-69: a line whose trimmed
content is non-empty becomes `marker + line + marker`; other lines are kept
unchanged. -/
def wrapLine (marker line : List Nat) : List Nat :=
  if jsTrim line ≠ [] then marker ++ line ++ marker else line

/-- The non-empty-selection branch of the toggle command, src/main.ts lines
61-71: split the selection on newline (code unit 10), wrap every line with
`wrapLine`, re-join with newline.  The result replaces the selection. -/
def toggleSelection (marker sel : List Nat) : List Nat :=
  ([10] : List Nat).intercalate ((sel.splitOn 10).map (wrapLine marker))

/-- CodeMirror `replaceRange ins from to` restricted to one line: the text
between offsets `a` and `b` is replaced by `ins`. -/
def replaceRange (text ins : List Nat) (a b : Nat) : List Nat :=
  text.take a ++ ins ++ text.drop b

/-- The empty-selection branch of the toggle command, src/main.ts lines
72-76: insert the marker at the cursor offset (a zero-width replaceRange at
`ch`) and move the cursor to `ch + marker.length`.  Returns the new line
text and the new cursor offset. -/
def toggleAtCursor (marker text : List Nat) (ch : Nat) : List Nat × Nat :=
  (replaceRange text marker ch ch, ch + marker.length)

/-- The plugin settings record (src/main.ts lines 5-10), all four fields
code-unit strings. -/
structure RedactorPluginSettings where
  redactedFolderPath : List Nat
  redactionSymbol : List Nat
  redactionMarker : List Nat
  redactionShortcut : List Nat
deriving DecidableEq

/-- The hardcoded defaults of src/main.ts lines 12-17.  The file stores the
symbol default as the three code units U+00E2 U+2013 U+02C6 (the UTF-8
bytes of the block glyph read back in a Windows-1252 decoding), the marker
as two equals signs, and the shortcut as the ASCII string Ctrl+Shift+R. -/
def DEFAULT_SETTINGS : RedactorPluginSettings :=
  { redactedFolderPath := []
    redactionSymbol := [0xE2, 0x2013, 0x2C6]
    redactionMarker := [61, 61]
    redactionShortcut := [67, 116, 114, 108, 43, 83, 104, 105, 102, 116, 43, 82] }

/-- Persisted plugin data as returned by `loadData()`: a JSON object in
which each settings field is either present or absent. -/
structure PersistedData where
  redactedFolderPath : Option (List Nat)
  redactionSymbol : Option (List Nat)
  redactionMarker : Option (List Nat)
  redactionShortcut : Option (List Nat)

/-- The settings load of src/main.ts lines 108-110:
`Object.assign({}, DEFAULT_SETTINGS, await this.loadData())`.  Every field
present in the persisted object overrides the default; every absent field
keeps its default. -/
def loadSettings (d : PersistedData) : RedactorPluginSettings :=
  { redactedFolderPath := d.redactedFolderPath.getD DEFAULT_SETTINGS.redactedFolderPath
    redactionSymbol := d.redactionSymbol.getD DEFAULT_SETTINGS.redactionSymbol
    redactionMarker := d.redactionMarker.getD DEFAULT_SETTINGS.redactionMarker
    redactionShortcut := d.redactionShortcut.getD DEFAULT_SETTINGS.redactionShortcut }

theorem isPre_iff (m u : List Nat) : isPre m u = true ↔ ∃ v, u = m ++ v := by
  induction m generalizing u with
  | nil => simp [isPre]
  | cons a as ih =>
    cases u with
    | nil =>
      simp only [isPre, List.cons_append]
      constructor
      · intro h; cases h
      · rintro ⟨v, hv⟩; cases hv
    | cons b bs =>
      simp only [isPre, Bool.and_eq_true, beq_iff_eq, List.cons_append, ih]
      constructor
      · rintro ⟨rfl, v, rfl⟩; exact ⟨v, rfl⟩
      · rintro ⟨v, hv⟩
        injection hv with h1 h2
        exact ⟨h1.symm, v, h2⟩

theorem isPre_append_self (m v : List Nat) : isPre m (m ++ v) = true :=
  (isPre_iff m (m ++ v)).mpr ⟨v, rfl⟩

theorem isPre_nil_right {m : List Nat} (hm : m ≠ []) : isPre m [] = false := by
  cases m with
  | nil => exact absurd rfl hm
  | cons a as => rfl

theorem isPre_length {m u : List Nat} (h : isPre m u = true) : m.length ≤ u.length := by
  obtain ⟨v, rfl⟩ := (isPre_iff m u).mp h
  simp

theorem isPre_append_right (m : List Nat) :
    ∀ u x : List Nat, m.length ≤ u.length → isPre m (u ++ x) = isPre m u := by
  induction m with
  | nil => intro u x _; simp [isPre]
  | cons a as ih =>
    intro u x h
    cases u with
    | nil => simp at h
    | cons b bs =>
      simp only [List.cons_append, isPre, List.append_eq]
      rw [ih bs x (by simpa using h)]

theorem findClose_sound (m : List Nat) :
    ∀ u i r, findClose m u = some (i, r) → u = i ++ m ++ r := by
  intro u
  induction u with
  | nil =>
    intro i r h
    simp only [findClose] at h
    split at h
    · rename_i hpre
      obtain ⟨v, hv⟩ := (isPre_iff m []).mp hpre
      have hm : m = [] := by
        cases m with
        | nil => rfl
        | cons a as => cases hv
      simp only [Option.some.injEq, Prod.mk.injEq] at h
      obtain ⟨h1, h2⟩ := h
      subst hm
      simp [← h1, ← h2]
    · cases h
  | cons c cs ih =>
    intro i r h
    simp only [findClose] at h
    split at h
    · rename_i hpre
      obtain ⟨v, hv⟩ := (isPre_iff m (c :: cs)).mp hpre
      simp only [Option.some.injEq, Prod.mk.injEq] at h
      obtain ⟨h1, h2⟩ := h
      rw [hv, List.drop_left] at h2
      rw [← h1, ← h2]
      simpa using hv
    · rename_i hpre
      cases hfc : findClose m cs with
      | none => rw [hfc] at h; cases h
      | some p =>
        obtain ⟨i', r'⟩ := p
        rw [hfc] at h
        simp only [Option.some.injEq, Prod.mk.injEq] at h
        obtain ⟨h1, h2⟩ := h
        have := ih i' r' hfc
        rw [← h1, ← h2]
        simp [this]

theorem findClose_min (m : List Nat) :
    ∀ u i r, findClose m u = some (i, r) →
      ∀ j < i.length, isPre m (List.drop j u) = false := by
  intro u
  induction u with
  | nil =>
    intro i r h j hj
    simp only [findClose] at h
    split at h
    · simp only [Option.some.injEq, Prod.mk.injEq] at h
      rw [← h.1] at hj
      simp at hj
    · cases h
  | cons c cs ih =>
    intro i r h j hj
    simp only [findClose] at h
    split at h
    · simp only [Option.some.injEq, Prod.mk.injEq] at h
      rw [← h.1] at hj
      simp at hj
    · rename_i hpre
      cases hfc : findClose m cs with
      | none => rw [hfc] at h; cases h
      | some p =>
        obtain ⟨i', r'⟩ := p
        rw [hfc] at h
        simp only [Option.some.injEq, Prod.mk.injEq] at h
        obtain ⟨h1, _⟩ := h
        rw [← h1] at hj
        cases j with
        | zero => simpa using Bool.eq_false_iff.mpr hpre
        | succ j' =>
          simp only [List.drop_succ_cons]
          exact ih i' r' hfc j' (by simpa using hj)

theorem findClose_none (m : List Nat) :
    ∀ u, findClose m u = none → ∀ j, isPre m (List.drop j u) = false := by
  intro u
  induction u with
  | nil =>
    intro h j
    simp only [findClose] at h
    split at h
    · cases h
    · rename_i hpre
      simpa using Bool.eq_false_iff.mpr hpre
  | cons c cs ih =>
    intro h j
    simp only [findClose] at h
    split at h
    · cases h
    · rename_i hpre
      have hcs : findClose m cs = none := by
        cases hfc : findClose m cs with
        | none => rfl
        | some p => obtain ⟨i', r'⟩ := p; rw [hfc] at h; cases h
      cases j with
      | zero => simpa using Bool.eq_false_iff.mpr hpre
      | succ j' =>
        simp only [List.drop_succ_cons]
        exact ih hcs j'

theorem findClose_eq (m : List Nat) :
    ∀ u k, (∀ j < k, isPre m (List.drop j u) = false) →
      isPre m (List.drop k u) = true →
      findClose m u = some (List.take k u, List.drop (k + m.length) u) := by
  intro u
  induction u with
  | nil =>
    intro k hmin hk
    simp only [List.drop_nil] at hk
    have h0 : isPre m [] = true := hk
    cases k with
    | zero =>
      simp only [findClose, h0, if_true]
      simp
    | succ k' =>
      have := hmin 0 (Nat.succ_pos k')
      simp only [List.drop_nil] at this
      rw [this] at h0
      cases h0
  | cons c cs ih =>
    intro k hmin hk
    cases k with
    | zero =>
      simp only [List.drop] at hk
      simp only [findClose, hk, if_true]
      simp
    | succ k' =>
      have h0 : isPre m (c :: cs) = false := by simpa using hmin 0 (Nat.succ_pos k')
      simp only [findClose, h0, Bool.false_eq_true, if_false]
      have hrec := ih k' (fun j hj => by simpa using hmin (j + 1) (by omega))
        (by simpa using hk)
      rw [hrec]
      simp only [List.take_succ_cons]
      have harith : k' + 1 + m.length = k' + m.length + 1 := by omega
      rw [harith, List.drop_succ_cons]

theorem matchAt_sound {m t i r : List Nat} (h : matchAt m t = some (i, r)) :
    t = m ++ i ++ m ++ r := by
  unfold matchAt at h
  split at h
  · rename_i hpre
    obtain ⟨v, hv⟩ := (isPre_iff m t).mp hpre
    rw [hv, List.drop_left] at h
    have := findClose_sound m v i r h
    rw [hv, this]
    simp
  · cases h

theorem matchAt_min {m t i r : List Nat} (h : matchAt m t = some (i, r)) :
    ∀ j < i.length, isPre m (List.drop j (List.drop m.length t)) = false := by
  unfold matchAt at h
  split at h
  · exact findClose_min m _ i r h
  · cases h

theorem matchAt_nil {m : List Nat} (hm : m ≠ []) : matchAt m [] = none := by
  unfold matchAt
  rw [isPre_nil_right hm]
  simp

theorem matchAt_length {m t i r : List Nat} (h : matchAt m t = some (i, r)) :
    t.length = m.length + i.length + m.length + r.length := by
  have := matchAt_sound h
  rw [this]
  simp
  omega

theorem runFuel_succ (m sym : List Nat) (f : Nat) (t : List Nat) :
    runFuel m sym (f + 1) t =
      match matchAt m t with
      | some (i, r) =>
        if 2 * m.length + i.length = 0 then
          match t with
          | [] => some (repl sym i.length, 1)
          | c :: cs => (runFuel m sym f cs).map (fun p => (repl sym i.length ++ c :: p.1, p.2 + 1))
        else
          (runFuel m sym f r).map (fun p => (repl sym i.length ++ p.1, p.2 + 1))
      | none =>
        match t with
        | [] => some ([], 0)
        | c :: cs => (runFuel m sym f cs).map (fun p => (c :: p.1, p.2)) := rfl

theorem runFuel_nil_none {m : List Nat} (sym : List Nat) (f : Nat)
    (h : matchAt m [] = none) : runFuel m sym (f + 1) [] = some ([], 0) := by
  rw [runFuel_succ, h]

theorem runFuel_cons_none {m sym : List Nat} {c : Nat} {cs : List Nat} (f : Nat)
    (h : matchAt m (c :: cs) = none) :
    runFuel m sym (f + 1) (c :: cs) = (runFuel m sym f cs).map (fun p => (c :: p.1, p.2)) := by
  rw [runFuel_succ, h]

theorem runFuel_some {m sym t i r : List Nat} (f : Nat)
    (h : matchAt m t = some (i, r)) (hz : 2 * m.length + i.length ≠ 0) :
    runFuel m sym (f + 1) t = (runFuel m sym f r).map (fun p => (repl sym i.length ++ p.1, p.2 + 1)) := by
  rw [runFuel_succ, h]
  simp only [if_neg hz]

theorem runFuel_empty_nil (sym : List Nat) (f : Nat) :
    runFuel [] sym (f + 1) [] = some (repl sym 0, 1) := by
  have h : matchAt [] ([] : List Nat) = some ([], []) := rfl
  rw [runFuel_succ, h]
  rfl

theorem runFuel_empty_cons (sym : List Nat) (c : Nat) (cs : List Nat) (f : Nat) :
    runFuel [] sym (f + 1) (c :: cs)
      = (runFuel [] sym f cs).map (fun p => (repl sym 0 ++ c :: p.1, p.2 + 1)) := by
  have h : matchAt [] (c :: cs) = some ([], c :: cs) := rfl
  rw [runFuel_succ, h]
  rfl

theorem runFuel_mono (m sym : List Nat) :
    ∀ fuel t p, runFuel m sym fuel t = some p → runFuel m sym (fuel + 1) t = some p := by
  intro fuel
  induction fuel with
  | zero => intro t p h; cases h
  | succ f ih =>
    intro t p h
    cases hma : matchAt m t with
    | some q =>
      obtain ⟨i, r⟩ := q
      by_cases hz : 2 * m.length + i.length = 0
      · have hm : m = [] := by
          cases m with
          | nil => rfl
          | cons a as => simp at hz
        subst hm
        have hir : i = [] ∧ r = t := by
          have : matchAt [] t = some ([], t) := by
            cases t <;> rfl
          rw [this] at hma
          simp only [Option.some.injEq, Prod.mk.injEq] at hma
          exact ⟨hma.1.symm, hma.2.symm⟩
        obtain ⟨hi, hr⟩ := hir
        subst hi
        cases t with
        | nil =>
          rw [runFuel_empty_nil] at h ⊢
          exact h
        | cons c cs =>
          rw [runFuel_empty_cons] at h ⊢
          cases hrec : runFuel [] sym f cs with
          | none => rw [hrec] at h; cases h
          | some p' => rw [hrec] at h; rw [ih cs p' hrec]; exact h
      · rw [runFuel_some f hma hz] at h
        rw [runFuel_some (f + 1) hma hz]
        cases hrec : runFuel m sym f r with
        | none => rw [hrec] at h; cases h
        | some p' => rw [hrec] at h; rw [ih r p' hrec]; exact h
    | none =>
      cases t with
      | nil =>
        rw [runFuel_nil_none sym f hma] at h
        rw [runFuel_nil_none sym (f + 1) hma]
        exact h
      | cons c cs =>
        rw [runFuel_cons_none f hma] at h
        rw [runFuel_cons_none (f + 1) hma]
        cases hrec : runFuel m sym f cs with
        | none => rw [hrec] at h; cases h
        | some p' => rw [hrec] at h; rw [ih cs p' hrec]; exact h

theorem runFuel_mono_le (m sym : List Nat) {f g : Nat} (hfg : f ≤ g) :
    ∀ t p, runFuel m sym f t = some p → runFuel m sym g t = some p := by
  induction hfg with
  | refl => intro t p h; exact h
  | step _ ih =>
    intro t p h
    exact runFuel_mono m sym _ t p (ih t p h)

theorem runFuel_isSome (m sym : List Nat) :
    ∀ fuel t, t.length < fuel → ∃ p, runFuel m sym fuel t = some p := by
  intro fuel
  induction fuel with
  | zero => intro t h; omega
  | succ f ih =>
    intro t ht
    cases hma : matchAt m t with
    | some q =>
      obtain ⟨i, r⟩ := q
      by_cases hz : 2 * m.length + i.length = 0
      · have hm : m = [] := by
          cases m with
          | nil => rfl
          | cons a as => simp at hz
        subst hm
        have hi : i = [] := by
          have : matchAt [] t = some ([], t) := by cases t <;> rfl
          rw [this] at hma
          simp only [Option.some.injEq, Prod.mk.injEq] at hma
          exact hma.1.symm
        subst hi
        cases t with
        | nil => exact ⟨_, runFuel_empty_nil sym f⟩
        | cons c cs =>
          obtain ⟨p', hp'⟩ := ih cs (by simp at ht ⊢; omega)
          rw [runFuel_empty_cons, hp']
          exact ⟨_, rfl⟩
      · have hlen := matchAt_length hma
        obtain ⟨p', hp'⟩ := ih r (by omega)
        rw [runFuel_some f hma hz, hp']
        exact ⟨_, rfl⟩
    | none =>
      cases t with
      | nil => exact ⟨_, runFuel_nil_none sym f hma⟩
      | cons c cs =>
        obtain ⟨p', hp'⟩ := ih cs (by simp at ht ⊢; omega)
        rw [runFuel_cons_none f hma, hp']
        exact ⟨_, rfl⟩

theorem run_spec (m sym t : List Nat) :
    runFuel m sym (t.length + 1) t = some (run m sym t) := by
  obtain ⟨p, hp⟩ := runFuel_isSome m sym (t.length + 1) t (by omega)
  rw [run, hp]
  rfl

theorem run_nil {m : List Nat} (sym : List Nat) (hm : m ≠ []) : run m sym [] = ([], 0) := by
  have h : runFuel m sym 1 [] = some ([], 0) := runFuel_nil_none sym 0 (matchAt_nil hm)
  have h2 := run_spec m sym []
  simp only [List.length_nil] at h2
  rw [h] at h2
  exact (Option.some_inj.mp h2).symm

theorem run_cons_none {m sym : List Nat} {c : Nat} {cs : List Nat}
    (h : matchAt m (c :: cs) = none) :
    run m sym (c :: cs) = (c :: (run m sym cs).1, (run m sym cs).2) := by
  have h2 : runFuel m sym (c :: cs).length cs = some (run m sym cs) :=
    runFuel_mono_le m sym (by simp) cs _ (run_spec m sym cs)
  have h3 := run_spec m sym (c :: cs)
  have h1 : (c :: cs).length + 1 = (c :: cs).length + 1 := rfl
  rw [show (c :: cs).length + 1 = (c :: cs).length + 1 from rfl] at h3
  rw [runFuel_cons_none (c :: cs).length h, h2] at h3
  simp only [Option.map_some'] at h3
  exact (Option.some_inj.mp h3).symm

theorem run_match {m sym t i r : List Nat} (hm : m ≠ [])
    (h : matchAt m t = some (i, r)) :
    run m sym t = (repl sym i.length ++ (run m sym r).1, (run m sym r).2 + 1) := by
  have hz : 2 * m.length + i.length ≠ 0 := by
    have : 0 < m.length := List.length_pos.mpr hm
    omega
  have hlen := matchAt_length h
  have h2 : runFuel m sym t.length r = some (run m sym r) := by
    refine runFuel_mono_le m sym ?_ r _ (run_spec m sym r)
    have : 0 < m.length := List.length_pos.mpr hm
    omega
  have h3 := run_spec m sym t
  rw [runFuel_some t.length h hz, h2] at h3
  simp only [Option.map_some'] at h3
  exact (Option.some_inj.mp h3).symm

theorem run_empty_marker (sym : List Nat) : ∀ t, (run [] sym t).1 = t := by
  intro t
  induction t with
  | nil =>
    have h := run_spec [] sym []
    simp only [List.length_nil] at h
    rw [runFuel_empty_nil sym 0] at h
    have h2 : run [] sym [] = (repl sym 0, 1) := (Option.some_inj.mp h).symm
    rw [h2]
    rfl
  | cons c cs ih =>
    have h2 : runFuel [] sym (c :: cs).length cs = some (run [] sym cs) :=
      runFuel_mono_le [] sym (by simp) cs _ (run_spec [] sym cs)
    have h3 := run_spec [] sym (c :: cs)
    rw [runFuel_empty_cons sym c cs (c :: cs).length, h2] at h3
    simp only [Option.map_some'] at h3
    have h4 : run [] sym (c :: cs) = (repl sym 0 ++ c :: (run [] sym cs).1, (run [] sym cs).2 + 1) :=
      (Option.some_inj.mp h3).symm
    rw [h4]
    simp only [repl, List.nil_append]
    rw [ih]

theorem matchAt_none_all {m t : List Nat} (hm : m ≠ [])
    (h : ∀ j < t.length, matchAt m (List.drop j t) = none) :
    ∀ j, matchAt m (List.drop j t) = none := by
  intro j
  by_cases hj : j < t.length
  · exact h j hj
  · rw [List.drop_eq_nil_of_le (by omega)]
    exact matchAt_nil hm

theorem run_no_match {m sym : List Nat} (hm : m ≠ []) :
    ∀ t, (∀ j, matchAt m (List.drop j t) = none) → run m sym t = (t, 0) := by
  intro t
  induction t with
  | nil => intro _; exact run_nil sym hm
  | cons c cs ih =>
    intro h
    have h0 : matchAt m (c :: cs) = none := by
      have := h 0
      rwa [List.drop_zero] at this
    rw [run_cons_none h0]
    have hcs : run m sym cs = (cs, 0) := ih (fun j => by
      have := h (j + 1)
      rwa [List.drop_succ_cons] at this)
    rw [hcs]

theorem run_gap {m sym : List Nat} :
    ∀ g y, (∀ j < g.length, isPre m (List.drop j (g ++ y)) = false) →
      run m sym (g ++ y) = (g ++ (run m sym y).1, (run m sym y).2) := by
  intro g
  induction g with
  | nil => intro y _; simp
  | cons c g' ih =>
    intro y h
    have h0 : matchAt m ((c :: g') ++ y) = none := by
      have hp : isPre m ((c :: g') ++ y) = false := by
        have := h 0 (by simp)
        rwa [List.drop_zero] at this
      unfold matchAt
      rw [hp]
      simp
    rw [List.cons_append] at h0 ⊢
    rw [run_cons_none h0]
    have hrec := ih y (fun j hj => by
      have := h (j + 1) (by simp; omega)
      rwa [List.cons_append, List.drop_succ_cons] at this)
    rw [hrec]
    simp

theorem isPre_drop_through {m a x : List Nat} (j : Nat) (hj : j < a.length) :
    isPre m (List.drop j ((a ++ m) ++ x)) = isPre m (List.drop j (a ++ m)) := by
  rw [List.drop_append_of_le_length (by simp; omega)]
  rw [isPre_append_right]
  simp only [List.length_drop, List.length_append]
  omega

theorem matchAt_assemble {m s : List Nat} (z : List Nat)
    (hs : ∀ j < s.length, isPre m (List.drop j (s ++ m)) = false) :
    matchAt m (m ++ (s ++ (m ++ z))) = some (s, z) := by
  unfold matchAt
  rw [isPre_append_self m (s ++ (m ++ z))]
  simp only [if_true]
  rw [List.drop_left]
  have hfc := findClose_eq m (s ++ (m ++ z)) s.length
    (fun j hj => by
      have h1 : List.drop j (s ++ (m ++ z)) = List.drop j ((s ++ m) ++ z) := by
        rw [List.append_assoc]
      rw [h1, isPre_drop_through j hj]
      exact hs j hj)
    (by rw [List.drop_left]; exact isPre_append_self m z)
  rw [hfc]
  rw [List.take_left' rfl]
  rw [← List.append_assoc, List.drop_left' (by simp)]

theorem run_assemble {m : List Nat} (sym : List Nat) (hm : m ≠ []) :
    ∀ ps gfin, (∀ c ∈ ps, okChunk m c) →
      (∀ j, matchAt m (List.drop j gfin) = none) →
      run m sym (assemble m ps gfin) = (assembleMasked m sym ps gfin, ps.length) := by
  intro ps
  induction ps with
  | nil =>
    intro gfin _ hg
    rw [assemble, assembleMasked]
    exact run_no_match hm gfin hg
  | cons c rest ih =>
    obtain ⟨g, s⟩ := c
    intro gfin hok hg
    have hchunk := hok (g, s) (List.mem_cons_self _ _)
    obtain ⟨hg1, hs1⟩ := hchunk
    simp only at hg1 hs1
    have hshape : assemble m ((g, s) :: rest) gfin
        = g ++ (m ++ (s ++ (m ++ assemble m rest gfin))) := by
      rw [assemble]
      simp [List.append_assoc]
    rw [hshape]
    rw [run_gap g (m ++ (s ++ (m ++ assemble m rest gfin)))
      (fun j hj => by
        have h1 : g ++ (m ++ (s ++ (m ++ assemble m rest gfin)))
            = (g ++ m) ++ (s ++ (m ++ assemble m rest gfin)) := by
          rw [List.append_assoc]
        rw [h1, isPre_drop_through j hj]
        exact hg1 j hj)]
    rw [run_match hm (matchAt_assemble (assemble m rest gfin) hs1)]
    rw [ih gfin (fun c hc => hok c (List.mem_cons_of_mem _ hc)) hg]
    rw [assembleMasked]
    simp [List.append_assoc]

theorem findClose_none_of (m : List Nat) :
    ∀ u, (∀ j, isPre m (List.drop j u) = false) → findClose m u = none := by
  intro u
  induction u with
  | nil =>
    intro h
    have h0 := h 0
    rw [List.drop_nil] at h0
    simp only [findClose, h0]
    simp
  | cons c cs ih =>
    intro h
    have h0 := h 0
    rw [List.drop_zero] at h0
    simp only [findClose, h0]
    rw [ih (fun j => by
      have := h (j + 1)
      rwa [List.drop_succ_cons] at this)]
    simp

theorem seqCountF_fuel (m : List Nat) :
    ∀ f g t, t.length ≤ f → t.length ≤ g → seqCountF m f t = seqCountF m g t := by
  intro f
  induction f with
  | zero =>
    intro g t hf _
    have ht : t = [] := List.eq_nil_of_length_eq_zero (by omega)
    subst ht
    cases g with
    | zero => rfl
    | succ g2 => rfl
  | succ f ih =>
    intro g t hf hg
    cases t with
    | nil =>
      cases g with
      | zero => rfl
      | succ g2 => rfl
    | cons c cs =>
      cases g with
      | zero => simp at hg
      | succ g2 =>
        simp only [seqCountF]
        split
        · rename_i hcond
          have hm1 : 0 < m.length := List.length_pos.mpr hcond.1
          have := ih g2 (List.drop m.length (c :: cs))
            (by simp at hf ⊢; omega) (by simp at hg ⊢; omega)
          rw [this]
        · have := ih g2 cs (by simp at hf; omega) (by simp at hg; omega)
          rw [this]

theorem seqCount_nil (m : List Nat) : seqCount m [] = 0 := rfl

theorem seqCount_cons (m : List Nat) (c : Nat) (cs : List Nat) :
    seqCount m (c :: cs) =
      if m ≠ [] ∧ isPre m (c :: cs) = true then
        1 + seqCount m (List.drop m.length (c :: cs))
      else seqCount m cs := by
  show seqCountF m (cs.length + 1) (c :: cs) = _
  simp only [seqCountF]
  split
  · rename_i hcond
    have hm1 : 0 < m.length := List.length_pos.mpr hcond.1
    rw [seqCount]
    rw [seqCountF_fuel m cs.length (List.drop m.length (c :: cs)).length
      (List.drop m.length (c :: cs)) (by simp; omega) le_rfl]
  · rw [seqCount]

theorem seqCount_no_occ {m : List Nat} (_hm : m ≠ []) :
    ∀ u, (∀ j, isPre m (List.drop j u) = false) → seqCount m u = 0 := by
  intro u
  induction u with
  | nil => intro _; exact seqCount_nil m
  | cons c cs ih =>
    intro h
    rw [seqCount_cons]
    have h0 := h 0
    rw [List.drop_zero] at h0
    rw [if_neg (by simp [h0])]
    exact ih (fun j => by
      have := h (j + 1)
      rwa [List.drop_succ_cons] at this)

theorem seqCount_start {m : List Nat} (hm : m ≠ []) (x : List Nat) :
    seqCount m (m ++ x) = 1 + seqCount m x := by
  cases hmx : m ++ x with
  | nil =>
    exfalso
    have := List.append_eq_nil.mp hmx
    exact hm this.1
  | cons c cs =>
    rw [← hmx, ]
    cases m with
    | nil => exact absurd rfl hm
    | cons a as =>
      rw [List.cons_append, seqCount_cons]
      rw [if_pos ⟨hm, by rw [← List.cons_append]; exact isPre_append_self (a :: as) x⟩]
      congr 1
      rw [← List.cons_append, List.drop_left]

theorem seqCount_gap {m : List Nat} (hm : m ≠ []) :
    ∀ i r, (∀ j < i.length, isPre m (List.drop j (i ++ (m ++ r))) = false) →
      seqCount m (i ++ (m ++ r)) = 1 + seqCount m r := by
  intro i
  induction i with
  | nil => intro r _; rw [List.nil_append]; exact seqCount_start hm r
  | cons c i' ih =>
    intro r h
    rw [List.cons_append, seqCount_cons]
    have h0 : isPre m (c :: (i' ++ (m ++ r))) = false := by
      have := h 0 (by simp)
      rwa [List.cons_append, List.drop_zero] at this
    rw [if_neg (by simp [h0])]
    exact ih r (fun j hj => by
      have := h (j + 1) (by simp; omega)
      rwa [List.cons_append, List.drop_succ_cons] at this)

theorem seqCount_match {m t i r : List Nat} (hm : m ≠ [])
    (h : matchAt m t = some (i, r)) : seqCount m t = 2 + seqCount m r := by
  have hshape : t = m ++ (i ++ (m ++ r)) := by
    have := matchAt_sound h
    rw [this]
    simp [List.append_assoc]
  have hmin := matchAt_min h
  have hdrop : List.drop m.length t = i ++ (m ++ r) := by
    rw [hshape, List.drop_left]
  rw [hshape, seqCount_start hm, seqCount_gap hm i r (fun j hj => by
    have := hmin j hj
    rwa [hdrop] at this)]
  omega

theorem seqCount_one {m t : List Nat} (hm : m ≠ []) (hp : isPre m t = true)
    (hno : ∀ j, isPre m (List.drop j (List.drop m.length t)) = false) :
    seqCount m t = 1 := by
  obtain ⟨v, hv⟩ := (isPre_iff m t).mp hp
  have hdrop : List.drop m.length t = v := by rw [hv, List.drop_left]
  rw [hv, seqCount_start hm, seqCount_no_occ hm v (fun j => by
    have := hno j
    rwa [hdrop] at this)]

theorem matchAt_none_tail {m t : List Nat} (h0 : matchAt m t = none)
    (hno : ∀ j, isPre m (List.drop j (List.drop m.length t)) = false) :
    ∀ j, matchAt m (List.drop j t) = none := by
  intro j
  cases j with
  | zero => rw [List.drop_zero]; exact h0
  | succ j' =>
    unfold matchAt
    by_cases hp2 : isPre m (List.drop (j' + 1) t) = true
    · rw [hp2, if_pos rfl]
      apply findClose_none_of
      intro k
      rw [List.drop_drop, List.drop_drop]
      have hx := hno (j' + 1 + k)
      rw [List.drop_drop] at hx
      have harith : j' + 1 + (m.length + k) = m.length + (j' + 1 + k) := by omega
      rw [harith]
      exact hx
    · rw [if_neg hp2]

theorem run_odd {m sym : List Nat} (hm : m ≠ []) :
    ∀ n t, t.length ≤ n → seqCount m t % 2 = 1 →
      ∃ u v, t = u ++ v ∧ isPre m v = true ∧ seqCount m v = 1 ∧
        run m sym t = ((run m sym u).1 ++ v, (run m sym u).2) := by
  intro n
  induction n with
  | zero =>
    intro t ht hodd
    have hnil : t = [] := List.eq_nil_of_length_eq_zero (by omega)
    subst hnil
    rw [seqCount_nil] at hodd
    omega
  | succ n ih =>
    intro t ht hodd
    cases hma : matchAt m t with
    | none =>
      cases t with
      | nil => rw [seqCount_nil] at hodd; omega
      | cons c cs =>
        by_cases hp : isPre m (c :: cs) = true
        · have hfc : findClose m (List.drop m.length (c :: cs)) = none := by
            unfold matchAt at hma
            rwa [hp, if_pos rfl] at hma
          have hno := findClose_none m _ hfc
          refine ⟨[], c :: cs, by simp, hp, seqCount_one hm hp hno, ?_⟩
          rw [run_no_match hm _ (matchAt_none_tail hma hno), run_nil sym hm]
          simp
        · have hsc : seqCount m (c :: cs) = seqCount m cs := by
            rw [seqCount_cons, if_neg (by simp [hp])]
          rw [hsc] at hodd
          obtain ⟨u', v, hcs, hv, h1, hrun⟩ := ih cs (by simp at ht; omega) hodd
          refine ⟨c :: u', v, by rw [List.cons_append, hcs], hv, h1, ?_⟩
          have hpu : isPre m (c :: u') = false := by
            by_contra hc
            have hc' : isPre m (c :: u') = true := by
              cases hb : isPre m (c :: u') with
              | true => rfl
              | false => rw [hb] at hc; exact absurd rfl hc
            obtain ⟨w, hw⟩ := (isPre_iff m (c :: u')).mp hc'
            have : isPre m (c :: cs) = true := by
              rw [hcs, ← List.cons_append, hw, List.append_assoc]
              exact isPre_append_self m (w ++ v)
            exact hp this
          have hmau : matchAt m (c :: u') = none := by
            unfold matchAt
            rw [hpu]
            simp
          rw [run_cons_none hma, run_cons_none hmau, hrun]
          simp
    | some q =>
      obtain ⟨i, r⟩ := q
      have hsc := seqCount_match hm hma
      rw [hsc] at hodd
      have hlen := matchAt_length hma
      have hmlen : 0 < m.length := List.length_pos.mpr hm
      obtain ⟨u', v, hr, hv, h1, hrun⟩ := ih r (by omega) (by omega)
      have hmin : ∀ j < i.length, isPre m (List.drop j (i ++ m)) = false := by
        intro j hj
        have hx := matchAt_min hma j hj
        have hdrop : List.drop m.length t = i ++ (m ++ r) := by
          rw [matchAt_sound hma]
          simp only [List.append_assoc]
          rw [List.drop_left' (by simp)]
        rw [hdrop] at hx
        rw [← isPre_drop_through j hj (x := r)]
        rwa [List.append_assoc]
      have hmu : matchAt m (m ++ (i ++ (m ++ u'))) = some (i, u') :=
        matchAt_assemble u' hmin
      refine ⟨m ++ (i ++ (m ++ u')), v, ?_, hv, h1, ?_⟩
      · rw [matchAt_sound hma, hr]
        simp [List.append_assoc]
      · rw [run_match hm hma, run_match hm hmu, hrun]
        simp

theorem count_repl {a : Nat} {sym : List Nat} (h : a ∉ sym) :
    ∀ n, List.count a (repl sym n) = 0 := by
  intro n
  induction n with
  | zero => rfl
  | succ k ih =>
    rw [repl, List.count_append, ih, List.count_eq_zero.mpr h]

theorem mem_isPre_single {a : Nat} :
    ∀ u x : List Nat, a ∈ u → ∃ j < u.length, isPre [a] (List.drop j (u ++ x)) = true := by
  intro u
  induction u with
  | nil => intro x h; cases h
  | cons c cs ih =>
    intro x h
    by_cases hca : c = a
    · refine ⟨0, by simp, ?_⟩
      subst hca
      rw [List.drop_zero, List.cons_append]
      simp [isPre]
    · have hmem : a ∈ cs := by
        cases h with
        | head => exact absurd rfl hca
        | tail _ h2 => exact h2
      obtain ⟨j, hj, hpre⟩ := ih x hmem
      exact ⟨j + 1, by simp; omega, by rwa [List.cons_append, List.drop_succ_cons]⟩

theorem no_occ_single_notMem {a : Nat} {u : List Nat}
    (h : ∀ j, isPre [a] (List.drop j u) = false) : a ∉ u := by
  intro hmem
  obtain ⟨j, _, hpre⟩ := mem_isPre_single u [] hmem
  rw [List.append_nil] at hpre
  rw [h j] at hpre
  cases hpre

theorem count_extract_single {a : Nat} {sym : List Nat} (h : a ∉ sym) :
    ∀ n t, t.length ≤ n →
      List.count a (extract [a] sym t) = List.count a t % 2 := by
  intro n
  induction n with
  | zero =>
    intro t ht
    have hnil : t = [] := List.eq_nil_of_length_eq_zero (by omega)
    subst hnil
    rw [extract, run_nil sym (by simp)]
    rfl
  | succ n ih =>
    intro t ht
    have hm : ([a] : List Nat) ≠ [] := by simp
    cases hma : matchAt [a] t with
    | none =>
      cases t with
      | nil =>
        rw [extract, run_nil sym hm]
        rfl
      | cons c cs =>
        have hext : extract [a] sym (c :: cs) = c :: extract [a] sym cs := by
          rw [extract, run_cons_none hma]
          rfl
        rw [hext]
        by_cases hca : c = a
        · have hpre : isPre [a] (c :: cs) = true := by simp [isPre, hca]
          have hfc : findClose [a] (List.drop 1 (c :: cs)) = none := by
            unfold matchAt at hma
            rwa [hpre, if_pos rfl] at hma
          have hnocc : ∀ j, isPre [a] (List.drop j cs) = false := by
            have := findClose_none [a] _ hfc
            simpa using this
          have hcs0 : List.count a cs = 0 := List.count_eq_zero.mpr (no_occ_single_notMem hnocc)
          have hext0 : List.count a (extract [a] sym cs) = 0 := by
            rw [ih cs (by simp at ht; omega), hcs0]
          simp [List.count_cons, hca, hcs0, hext0]
        · have hcount : List.count a (c :: cs) = List.count a cs := by
            simp [List.count_cons, Ne.symm hca]
          have hcount2 : List.count a (c :: extract [a] sym cs) = List.count a (extract [a] sym cs) := by
            simp [List.count_cons, Ne.symm hca]
          rw [hcount, hcount2]
          exact ih cs (by simp at ht; omega)
    | some q =>
      obtain ⟨i, r⟩ := q
      have hlen := matchAt_length hma
      have hext : extract [a] sym t = repl sym i.length ++ extract [a] sym r := by
        rw [extract, run_match hm hma]
        rfl
      have hshape : t = [a] ++ (i ++ ([a] ++ r)) := by
        have := matchAt_sound hma
        rw [this]
        simp [List.append_assoc]
      have hi0 : List.count a i = 0 := by
        apply List.count_eq_zero.mpr
        intro hmem
        obtain ⟨j, hj, hpre⟩ := mem_isPre_single i ([a] ++ r) hmem
        have hx := matchAt_min hma j hj
        have hdrop : List.drop 1 t = i ++ ([a] ++ r) := by
          rw [hshape]
          rfl
        rw [show ([a] : List Nat).length = 1 from rfl, hdrop] at hx
        rw [hx] at hpre
        cases hpre
      rw [hext, List.count_append, count_repl h]
      have hir := ih r (by simp at ht hlen; omega)
      rw [hir]
      rw [hshape]
      simp only [List.count_append, List.count_cons, List.count_nil]
      simp [hi0]
      omega

theorem findClose_start {m u : List Nat} (hp : isPre m u = true) :
    findClose m u = some ([], List.drop m.length u) := by
  cases u with
  | nil => simp [findClose, hp]
  | cons c cs => simp [findClose, hp]

theorem matchAt_open (m x : List Nat) (hp : isPre m x = true) :
    matchAt m (m ++ x) = some ([], List.drop m.length x) := by
  unfold matchAt
  rw [isPre_append_self m x, if_pos rfl, List.drop_left, findClose_start hp]

theorem matchAt_one {m : List Nat} (hm : m ≠ []) (c : Nat) : matchAt m [c] = none := by
  cases hma : matchAt m [c] with
  | none => rfl
  | some q =>
    obtain ⟨i, r⟩ := q
    exfalso
    have hlen := matchAt_length hma
    have hpos := List.length_pos.mpr hm
    simp at hlen
    omega

theorem matchAt_pair_ne {m : List Nat} {c d : Nat} (hm : m ≠ []) (hcd : c ≠ d) :
    matchAt m [c, d] = none := by
  cases hma : matchAt m [c, d] with
  | none => rfl
  | some q =>
    obtain ⟨i, r⟩ := q
    exfalso
    have hlen := matchAt_length hma
    have hpos := List.length_pos.mpr hm
    simp at hlen
    have hm1 : m.length = 1 := by omega
    have hi : i = [] := List.eq_nil_of_length_eq_zero (by omega)
    have hr : r = [] := List.eq_nil_of_length_eq_zero (by omega)
    obtain ⟨x, hx⟩ : ∃ x, m = [x] := by
      cases m with
      | nil => exact absurd rfl hm
      | cons a as =>
        cases as with
        | nil => exact ⟨a, rfl⟩
        | cons b bs => simp at hm1
    subst hx hi hr
    have hshape := matchAt_sound hma
    simp at hshape
    exact hcd (hshape.1.trans hshape.2.symm)

theorem extract_ab {m sym : List Nat} (hm : m ≠ []) :
    extract m sym [97, 98] = [97, 98] := by
  have h1 : matchAt m [97, 98] = none := matchAt_pair_ne hm (by omega)
  have h2 : matchAt m [98] = none := matchAt_one hm 98
  rw [extract, run_cons_none h1, run_cons_none h2, run_nil sym hm]

theorem all_eq_of_append_eq_cons :
    ∀ (m v y : List Nat) (c : Nat), m ++ v = c :: (m ++ y) → ∀ x ∈ m, x = c := by
  intro m
  induction m with
  | nil => intro v y c _ x hx; cases hx
  | cons a as ih =>
    intro v y c h x hx
    rw [List.cons_append] at h
    injection h with h1 h2
    rw [List.cons_append] at h2
    subst h1
    cases hx with
    | head => rfl
    | tail _ hx2 => exact ih v y a h2 x hx2

theorem eq_replicate_of_isPre_cons {m y : List Nat} {c : Nat}
    (h : isPre m (c :: (m ++ y)) = true) : m = List.replicate m.length c := by
  obtain ⟨v, hv⟩ := (isPre_iff _ _).mp h
  exact List.eq_replicate_of_mem (all_eq_of_append_eq_cons m v y c hv.symm)

theorem rep_rotate (c : Nat) : ∀ (k : Nat) (x : List Nat),
    c :: (List.replicate k c ++ x) = List.replicate k c ++ (c :: x) := by
  intro k
  induction k with
  | zero => intro x; rfl
  | succ k ih =>
    intro x
    simp only [List.replicate_succ, List.cons_append]
    rw [ih]

theorem gbAux_append_free {m : List Nat} (hfree : escapeFree m = true) :
    ∀ (rest : List Nat) (d : Nat) (inC : Bool),
      gbAux (m ++ rest) d inC false = gbAux rest d inC false := by
  induction m with
  | nil => intro rest d inC; rfl
  | cons c cs ih =>
    simp only [escapeFree, List.all_cons, Bool.and_eq_true, Bool.not_eq_true'] at hfree
    obtain ⟨hc, hcs⟩ := hfree
    have hcs2 : escapeFree cs = true := hcs
    have h92 : ¬ (c = 92) := fun h => absurd hc (by rw [h]; decide)
    have h93 : ¬ (c = 93) := fun h => absurd hc (by rw [h]; decide)
    have h91 : ¬ (c = 91) := fun h => absurd hc (by rw [h]; decide)
    have h40 : ¬ (c = 40) := fun h => absurd hc (by rw [h]; decide)
    have h41 : ¬ (c = 41) := fun h => absurd hc (by rw [h]; decide)
    intro rest d inC
    rw [List.cons_append, gbAux]
    rw [if_neg (by simp), if_neg h92]
    cases inC with
    | true =>
      rw [if_pos rfl, if_neg h93]
      exact ih hcs2 rest d true
    | false =>
      rw [if_neg (by simp), if_neg h91, if_neg h40, if_neg h41]
      exact ih hcs2 rest d false

theorem gbAux_core (x : List Nat) :
    gbAux (40 :: 46 :: 42 :: 63 :: 41 :: x) 0 false false = gbAux x 0 false false := by
  simp [gbAux]

theorem groupsBalanced_pat {m : List Nat} (hfree : escapeFree m = true) :
    groupsBalanced (pat m) = true := by
  rw [groupsBalanced, pat, List.append_assoc, gbAux_append_free hfree]
  simp only [List.cons_append, List.nil_append]
  rw [gbAux_core m]
  have h := gbAux_append_free hfree [] 0 false
  rw [List.append_nil] at h
  rw [h]
  rfl

/-- Claim C5: if the marker is the empty string, or the text contains no
match of the marker-pair pattern at any position, the extraction output
equals the input unchanged. -/
theorem extract_id_of_no_match (m sym t : List Nat)
    (h : m = [] ∨ ∀ j < t.length, matchAt m (List.drop j t) = none) :
    extract m sym t = t := by
  rcases h with rfl | h
  · rw [extract]
    exact run_empty_marker sym t
  · by_cases hm : m = []
    · rw [hm, extract]
      exact run_empty_marker sym t
    · rw [extract, run_no_match hm t (matchAt_none_all hm h)]

theorem extract_id_of_no_match_witness :
    extract [] [9608] [104, 105] = [104, 105] ∧
    extract [61, 61] [9608] [104, 105, 33] = [104, 105, 33] :=
  ⟨extract_id_of_no_match [] [9608] [104, 105] (Or.inl rfl),
   extract_id_of_no_match [61, 61] [9608] [104, 105, 33] (Or.inr (by decide))⟩

/-- Claim C2: on a text made of `ps.length` well-formed marker pairs
(gaps and spans free of stray marker occurrences) followed by a final
segment with no further pair, extraction masks exactly the spans, keeps
every gap and the final segment verbatim, and replaces exactly `ps.length`
spans.  The scan is left-to-right and lazy: each span closes at the first
marker occurrence after its opening marker (that is what `okChunk`
requires and `matchAt` produces), and scanning resumes right after each
closing marker, so matches never overlap or nest. -/
theorem extract_pairs (m sym : List Nat) (ps : List (List Nat × List Nat)) (gfin : List Nat)
    (hm : m ≠ [])
    (hok : ∀ c ∈ ps, okChunk m c)
    (hg : ∀ j < gfin.length, matchAt m (List.drop j gfin) = none) :
    extract m sym (assemble m ps gfin) = assembleMasked m sym ps gfin ∧
    matchCount m sym (assemble m ps gfin) = ps.length := by
  have h := run_assemble sym hm ps gfin hok (matchAt_none_all hm hg)
  constructor
  · rw [extract, h]
  · rw [matchCount, h]

theorem extract_pairs_witness :
    extract [61, 61] [9608]
        (assemble [61, 61] [([97], [98]), ([99], [100, 101])] [102, 61, 61])
      = assembleMasked [61, 61] [9608] [([97], [98]), ([99], [100, 101])] [102, 61, 61] ∧
    matchCount [61, 61] [9608]
        (assemble [61, 61] [([97], [98]), ([99], [100, 101])] [102, 61, 61]) = 2 :=
  have h := extract_pairs [61, 61] [9608] [([97], [98]), ([99], [100, 101])] [102, 61, 61]
    (by decide) (by decide) (by decide)
  ⟨h.1, h.2.trans rfl⟩

/-- Claim C1 (amended): for a non-empty marker, a text
`p ++ marker ++ s ++ marker ++ q` in which no stray marker occurrence
starts inside `p`, inside `s`, or crossing into the following marker, and
whose suffix `q` contains no further pair, extracts to
`p ++ repl sym s.length ++ q`: the span is replaced by the symbol repeated
once per UTF-16 code unit of `s` (`s.length` is the code-unit count, which
is what JavaScript `text.length` yields), and everything outside the
matched span is unchanged. -/
theorem extract_single_pair (m sym p s q : List Nat) (hm : m ≠ [])
    (hp : ∀ j < p.length, isPre m (List.drop j (p ++ m)) = false)
    (hs : ∀ j < s.length, isPre m (List.drop j (s ++ m)) = false)
    (hq : ∀ j < q.length, matchAt m (List.drop j q) = none) :
    extract m sym (p ++ (m ++ (s ++ (m ++ q)))) = p ++ (repl sym s.length ++ q) := by
  have hok : ∀ c ∈ [(p, s)], okChunk m c := by
    intro c hc
    rw [List.mem_singleton] at hc
    subst hc
    exact ⟨hp, hs⟩
  have h := run_assemble sym hm [(p, s)] q hok (matchAt_none_all hm hq)
  have hshape : assemble m [(p, s)] q = p ++ (m ++ (s ++ (m ++ q))) := by
    simp [assemble, List.append_assoc]
  have hshape2 : assembleMasked m sym [(p, s)] q = p ++ (repl sym s.length ++ q) := by
    simp [assembleMasked, List.append_assoc]
  rw [extract, ← hshape, h, hshape2]

theorem extract_single_pair_witness :
    extract [61, 61] [9608] ([97] ++ ([61, 61] ++ ([98, 99] ++ ([61, 61] ++ [100]))))
      = [97] ++ (repl [9608] 2 ++ [100]) :=
  extract_single_pair [61, 61] [9608] [97] [98, 99] [100]
    (by decide) (by decide) (by decide) (by decide)

/-- Claim C1 as frozen is false on the code, on two counts exhibited at
concrete inputs.  First, the masked length is the UTF-16 code-unit count
of the span, not its character count: with marker `==`, symbol the block
glyph (9608), empty prefix and suffix, and span a single astral character
(the surrogate pair 55348 56606 — one character, two code units), the span
contains no marker occurrence, yet extraction emits the symbol twice, not
once per character.  Second, the quantification over every prefix fails:
with prefix `==` (the marker itself) and span `a` (97), the text is
`====a==`, the lazy scan pairs the first two marker occurrences into an
empty span and leaves `a==` verbatim, so the output is not
`prefix ++ mask ++ suffix`. -/
theorem extract_single_pair_cex :
    ((isPre [61, 61] [55348, 56606] = false ∧ isPre [61, 61] [56606] = false) ∧
      charCount [55348, 56606] = 1 ∧
      extract [61, 61] [9608] ([61, 61] ++ ([55348, 56606] ++ [61, 61])) = [9608, 9608] ∧
      extract [61, 61] [9608] ([61, 61] ++ ([55348, 56606] ++ [61, 61]))
        ≠ repl [9608] (charCount [55348, 56606])) ∧
    (isPre [61, 61] [97] = false ∧
      extract [61, 61] [9608]
          ([61, 61] ++ ([61, 61] ++ ([97] ++ ([61, 61] ++ [])))) = [97, 61, 61] ∧
      extract [61, 61] [9608]
          ([61, 61] ++ ([61, 61] ++ ([97] ++ ([61, 61] ++ []))))
        ≠ [61, 61] ++ (repl [9608] (charCount [97]) ++ [])) := by
  decide

/-- Claim C4: when the marker occurs an odd number of times in the text
(left-to-right non-overlapping count `seqCount`), the text splits as
`u ++ v` where `v` starts at the trailing unmatched marker occurrence
(`v` begins with the marker and contains exactly that one occurrence), and
extraction leaves `v` — the unterminated marker and all text after it —
verbatim at the end of the output, processing only `u`. -/
theorem extract_odd_markers (m sym t : List Nat) (hm : m ≠ [])
    (hodd : seqCount m t % 2 = 1) :
    ∃ u v, t = u ++ v ∧ isPre m v = true ∧ seqCount m v = 1 ∧
      extract m sym t = extract m sym u ++ v := by
  obtain ⟨u, v, h1, h2, h3, h4⟩ := run_odd hm t.length t le_rfl hodd
  refine ⟨u, v, h1, h2, h3, ?_⟩
  rw [extract, h4]
  rfl

theorem extract_odd_markers_witness :
    seqCount [61, 61] [97, 61, 61, 98, 61, 61, 99, 61, 61, 100] % 2 = 1 ∧
    (∃ u v, [97, 61, 61, 98, 61, 61, 99, 61, 61, 100] = u ++ v ∧
      isPre [61, 61] v = true ∧ seqCount [61, 61] v = 1 ∧
      extract [61, 61] [9608] [97, 61, 61, 98, 61, 61, 99, 61, 61, 100]
        = extract [61, 61] [9608] u ++ v) :=
  ⟨by decide,
   extract_odd_markers [61, 61] [9608] [97, 61, 61, 98, 61, 61, 99, 61, 61, 100]
     (by decide) (by decide)⟩

/-- Claim C10: for every non-empty marker, two immediately adjacent marker
occurrences form a valid match with an empty inner span, so the pair is
deleted outright: `extract ("a" ++ m ++ m ++ "b") = "ab"` (97 and 98 are
the code units of a and b) for every symbol. -/
theorem extract_adjacent_pair (m sym : List Nat) (hm : m ≠ []) :
    extract m sym (97 :: (m ++ (m ++ [98]))) = [97, 98] := by
  by_cases hp : isPre m (97 :: (m ++ (m ++ [98]))) = true
  · have hrep : m = List.replicate m.length 97 := eq_replicate_of_isPre_cons hp
    have hshape : 97 :: (m ++ (m ++ [98])) = m ++ (m ++ [97, 98]) := by
      conv_lhs => rw [hrep]
      conv_rhs => rw [hrep]
      rw [rep_rotate 97 m.length (List.replicate m.length 97 ++ [98]),
        rep_rotate 97 m.length [98]]
    rw [hshape]
    have hin : matchAt m (m ++ (m ++ [97, 98])) = some ([], [97, 98]) := by
      have h := matchAt_open m (m ++ [97, 98]) (isPre_append_self m [97, 98])
      rwa [List.drop_left] at h
    rw [extract, run_match hm hin]
    have hab : (run m sym [97, 98]).1 = [97, 98] := extract_ab hm
    show repl sym (List.length ([] : List Nat)) ++ (run m sym [97, 98]).1 = [97, 98]
    rw [hab]
    rfl
  · have hp2 : isPre m (97 :: (m ++ (m ++ [98]))) = false := by
      cases hb : isPre m (97 :: (m ++ (m ++ [98]))) with
      | true => exact absurd hb hp
      | false => rfl
    have hma : matchAt m (97 :: (m ++ (m ++ [98]))) = none := by
      unfold matchAt
      rw [hp2]
      simp
    rw [extract, run_cons_none hma]
    have hin : matchAt m (m ++ (m ++ [98])) = some ([], [98]) := by
      have h := matchAt_open m (m ++ [98]) (isPre_append_self m [98])
      rwa [List.drop_left] at h
    rw [run_match hm hin]
    rw [run_cons_none (matchAt_one hm 98), run_nil sym hm]
    rfl

theorem extract_adjacent_pair_witness :
    extract [61, 61] [35] (97 :: ([61, 61] ++ ([61, 61] ++ [98]))) = [97, 98] :=
  extract_adjacent_pair [61, 61] [35] (by decide)

/-- Claim C9: extraction is idempotent on any of its outputs that contains
no further marker pair (first part), and for a one-unit marker with a
one-unit masking symbol different from the marker character the output
never contains a pair, so idempotence holds outright (second part). -/
theorem extract_idem (m sym t : List Nat) :
    ((∀ j < (extract m sym t).length,
        matchAt m (List.drop j (extract m sym t)) = none) →
      extract m sym (extract m sym t) = extract m sym t) ∧
    (∀ a s, m = [a] → sym = [s] → s ≠ a →
      extract m sym (extract m sym t) = extract m sym t) := by
  constructor
  · intro h
    by_cases hm0 : m = []
    · subst hm0
      rw [extract]
      exact run_empty_marker sym (extract [] sym t)
    · rw [extract, run_no_match hm0 _ (matchAt_none_all hm0 h)]
  · intro a s hma hsa hne
    subst hma
    subst hsa
    have hnotm : a ∉ ([s] : List Nat) := by simp [Ne.symm hne]
    have hcount : List.count a (extract [a] [s] t) = List.count a t % 2 :=
      count_extract_single hnotm t.length t le_rfl
    have hle : List.count a (extract [a] [s] t) ≤ 1 := by
      rw [hcount]
      omega
    have hnm : ∀ j, matchAt [a] (List.drop j (extract [a] [s] t)) = none := by
      intro j
      cases hmo : matchAt [a] (List.drop j (extract [a] [s] t)) with
      | none => rfl
      | some q =>
        obtain ⟨i, r⟩ := q
        exfalso
        have hshape := matchAt_sound hmo
        have h2 : 2 ≤ List.count a (List.drop j (extract [a] [s] t)) := by
          rw [hshape]
          simp [List.count_append, List.count_cons]
          omega
        have h3 : List.count a (List.drop j (extract [a] [s] t))
            ≤ List.count a (extract [a] [s] t) := by
          conv_rhs => rw [← List.take_append_drop j (extract [a] [s] t)]
          rw [List.count_append]
          omega
        omega
    rw [extract, run_no_match (by simp) _ hnm]

theorem extract_idem_witness :
    extract [61, 61] [9608] (extract [61, 61] [9608] [61, 61, 120, 61, 61, 121, 61, 61])
      = extract [61, 61] [9608] [61, 61, 120, 61, 61, 121, 61, 61] ∧
    extract [61] [35] (extract [61] [35] [61, 97, 61, 98, 61])
      = extract [61] [35] [61, 97, 61, 98, 61] :=
  ⟨(extract_idem [61, 61] [9608] [61, 61, 120, 61, 61, 121, 61, 61]).1 (by decide),
   (extract_idem [61] [35] [61, 97, 61, 98, 61]).2 61 35 rfl rfl (by decide)⟩

/-- Claim C3 is false as frozen: the marker is interpolated unescaped into
the pattern source (src/main.ts line 34), so the marker `(` (code unit 40)
produces the pattern `((.*?)(` whose groups do not balance.  The
ECMAScript RegExp grammar rejects such a pattern: `new RegExp` throws a
SyntaxError inside the command handler before any scanning, so extraction
does raise an error for this marker.  `groupsBalanced` is the group-balance
requirement of the grammar; `pat` is the built pattern source. -/
theorem regex_marker_cex :
    escapeFree [40] = false ∧ groupsBalanced (pat [40]) = false := by
  decide

/-- Claim C3 (amended): for every marker whose generated pattern is a valid
regular expression — in particular every marker free of regex
metacharacters, for which the pattern passes the grammar's group-balance
requirement — extraction completes and returns a string for every symbol
and every input text: the replace loop always succeeds within fuel
`t.length + 1` and never raises an error. -/
theorem extract_total (m sym t : List Nat) (hfree : escapeFree m = true) :
    (runFuel m sym (t.length + 1) t).isSome = true ∧
    groupsBalanced (pat m) = true := by
  constructor
  · obtain ⟨p, hp⟩ := runFuel_isSome m sym (t.length + 1) t (by omega)
    rw [hp]
    rfl
  · exact groupsBalanced_pat hfree

theorem extract_total_witness :
    (runFuel [61, 61] [9608] ([97, 61, 61, 98, 61, 61].length + 1)
        [97, 61, 61, 98, 61, 61]).isSome = true ∧
    groupsBalanced (pat [61, 61]) = true :=
  extract_total [61, 61] [9608] [97, 61, 61, 98, 61, 61] (by decide)

/-- Claim C6: on a non-empty selection made of lines `ls` (newline-free,
joined by the newline unit 10), toggling wraps each line whose JavaScript
trim is non-empty with the marker at the very start and very end of the
whole original line, leaves blank or whitespace-only lines unchanged, and
rejoins with newlines; the wrapped lines are exactly `ls.map (wrapLine
marker)`. -/
theorem toggleSelection_lines (marker : List Nat) (ls : List (List Nat))
    (h10 : ∀ l ∈ ls, 10 ∉ l) (hne : ls ≠ []) :
    toggleSelection marker (([10] : List Nat).intercalate ls)
      = ([10] : List Nat).intercalate (ls.map (wrapLine marker)) ∧
    (∀ l ∈ ls, jsTrim l ≠ [] → wrapLine marker l = marker ++ l ++ marker) ∧
    (∀ l ∈ ls, jsTrim l = [] → wrapLine marker l = l) := by
  refine ⟨?_, ?_, ?_⟩
  · rw [toggleSelection, List.splitOn_intercalate ls 10 h10 hne]
  · intro l _ hl
    rw [wrapLine, if_pos hl]
  · intro l _ hl
    rw [wrapLine, if_neg (by simp [hl])]

theorem toggleSelection_lines_witness :
    toggleSelection [61, 61]
        [108, 105, 110, 101, 32, 111, 110, 101, 10, 10, 108, 105, 110, 101, 32, 116, 119, 111]
      = [61, 61, 108, 105, 110, 101, 32, 111, 110, 101, 61, 61, 10, 10,
         61, 61, 108, 105, 110, 101, 32, 116, 119, 111, 61, 61] := by
  have h := (toggleSelection_lines [61, 61]
    [[108, 105, 110, 101, 32, 111, 110, 101], [], [108, 105, 110, 101, 32, 116, 119, 111]]
    (by decide) (by decide)).1
  have e1 : ([10] : List Nat).intercalate
      [[108, 105, 110, 101, 32, 111, 110, 101], [], [108, 105, 110, 101, 32, 116, 119, 111]]
      = [108, 105, 110, 101, 32, 111, 110, 101, 10, 10, 108, 105, 110, 101, 32, 116, 119, 111] := by
    decide
  have e2 : ([10] : List Nat).intercalate
      ([[108, 105, 110, 101, 32, 111, 110, 101], [], [108, 105, 110, 101, 32, 116, 119, 111]].map
        (wrapLine [61, 61]))
      = [61, 61, 108, 105, 110, 101, 32, 111, 110, 101, 61, 61, 10, 10,
         61, 61, 108, 105, 110, 101, 32, 116, 119, 111, 61, 61] := by
    decide
  rw [← e1, h, e2]

/-- Claim C7: on an empty (caret-only) selection the toggle command inserts
exactly one instance of the marker at the cursor offset — the text up to
the cursor and the text after it are preserved and the marker sits between
them — and the resulting cursor offset equals the original offset plus the
marker length. -/
theorem toggleAtCursor_spec (marker text : List Nat) (ch : Nat) (h : ch ≤ text.length) :
    (toggleAtCursor marker text ch).2 = ch + marker.length ∧
    (toggleAtCursor marker text ch).1 = text.take ch ++ marker ++ text.drop ch ∧
    (toggleAtCursor marker text ch).1.length = text.length + marker.length ∧
    List.take ch (toggleAtCursor marker text ch).1 = List.take ch text ∧
    List.drop (ch + marker.length) (toggleAtCursor marker text ch).1 = List.drop ch text := by
  have htk : (List.take ch text).length = ch := by
    rw [List.length_take]
    omega
  refine ⟨rfl, rfl, ?_, ?_, ?_⟩
  · show (text.take ch ++ marker ++ text.drop ch).length = text.length + marker.length
    simp only [List.length_append, List.length_take, List.length_drop]
    omega
  · show List.take ch (text.take ch ++ marker ++ text.drop ch) = List.take ch text
    rw [List.append_assoc, List.take_left' htk]
  · show List.drop (ch + marker.length) (text.take ch ++ marker ++ text.drop ch)
      = List.drop ch text
    rw [List.drop_left' (by rw [List.length_append, htk])]

theorem toggleAtCursor_spec_witness :
    (toggleAtCursor [61, 61] [104, 105] 1).2 = 1 + ([61, 61] : List Nat).length ∧
    (toggleAtCursor [61, 61] [104, 105] 1).1
      = List.take 1 [104, 105] ++ [61, 61] ++ List.drop 1 [104, 105] :=
  have h := toggleAtCursor_spec [61, 61] [104, 105] 1 (by decide)
  ⟨h.1, h.2.1⟩

/-- Claim C8: loading merges persisted data over the hardcoded defaults —
every absent field takes its default and a present field overrides it, so
no field is ever absent after load, and loading `{maskSymbol: "#"}` (35 is
the code unit of #) yields the defaults with symbol `#`.  The claim's
stated default symbol is wrong on the code, however: `DEFAULT_SETTINGS`
stores the three-unit mojibake sequence 0xE2 0x2013 0x2C6 ("â–ˆ", the
UTF-8 bytes of the block glyph re-decoded as Windows-1252), not the block
glyph 0x2588 ("█") that the claim (and plainly the author) intended. -/
theorem loadSettings_spec :
    (∀ d : PersistedData,
      (d.redactedFolderPath = none → (loadSettings d).redactedFolderPath = []) ∧
      (d.redactionSymbol = none →
        (loadSettings d).redactionSymbol = [0xE2, 0x2013, 0x2C6]) ∧
      (d.redactionMarker = none → (loadSettings d).redactionMarker = [61, 61]) ∧
      (d.redactionShortcut = none →
        (loadSettings d).redactionShortcut
          = [67, 116, 114, 108, 43, 83, 104, 105, 102, 116, 43, 82]) ∧
      (∀ v, d.redactedFolderPath = some v → (loadSettings d).redactedFolderPath = v) ∧
      (∀ v, d.redactionSymbol = some v → (loadSettings d).redactionSymbol = v) ∧
      (∀ v, d.redactionMarker = some v → (loadSettings d).redactionMarker = v) ∧
      (∀ v, d.redactionShortcut = some v → (loadSettings d).redactionShortcut = v)) ∧
    loadSettings ⟨none, some [35], none, none⟩
      = ⟨[], [35], [61, 61], [67, 116, 114, 108, 43, 83, 104, 105, 102, 116, 43, 82]⟩ ∧
    DEFAULT_SETTINGS.redactionSymbol ≠ [0x2588] := by
  refine ⟨?_, by decide, by decide⟩
  intro d
  refine ⟨?_, ?_, ?_, ?_, ?_, ?_, ?_, ?_⟩ <;>
    first
      | (intro h; simp [loadSettings, DEFAULT_SETTINGS, h])
      | (intro v h; simp [loadSettings, DEFAULT_SETTINGS, h])

theorem loadSettings_spec_witness :
    (loadSettings ⟨none, none, none, none⟩).redactionSymbol = [0xE2, 0x2013, 0x2C6] ∧
    (loadSettings ⟨none, some [35], none, none⟩).redactionSymbol = [35] :=
  ⟨(loadSettings_spec.1 ⟨none, none, none, none⟩).2.1 rfl,
   (loadSettings_spec.1 ⟨none, some [35], none, none⟩).2.2.2.2.2.1 [35] rfl⟩
